import Mathlib

/-!
Verification of the `slru-cache` segmented LRU cache.

The repository's own code is `src/index.js` (class `SLRU`), which wires two
instances of the external `lru-cache` package together.  The `lru-cache`
dependency is not part of the repository sources, so the recency-ordered
store (the spec's *OrderedStore*) is modelled from the spec's §4.1 contract;
the `SLRU` operations are translated directly from `src/index.js`.

JavaScript values are modelled as `Option B`: `none` plays the role of
`undefined` (the absent sentinel), so a stored `undefined` value and a miss
are indistinguishable for `get`/`peek` but not for `has`, exactly as in the
source.  A store's entry list is kept most-recently-used first.
-/

set_option linter.unusedSectionVars false

variable {K B : Type} [DecidableEq K] [DecidableEq B]

/-- Boolean key test used by the store operations. -/
def keyEq (k : K) (e : K × Option B) : Bool := decide (e.1 = k)

/-- Cumulative weighted size of a list of entries under weight function `lenF`. -/
def entriesSize (lenF : Option B → Nat) (l : List (K × Option B)) : Nat :=
  (l.map fun e => lenF e.2).sum

/-- Modelled from the spec: the eviction loop of OrderedStore `set` (§4.1):
while the cumulative size exceeds the capacity, the least-recently-used entry
is removed, one at a time.  The input list is least-recently-used first; the
result is `(kept entries, evicted entries in hook-invocation order)`.
A capacity of `none` means no bound (lru-cache's `Infinity`). -/
def trimRev (lenF : Option B → Nat) (mx : Option Nat) :
    List (K × Option B) → List (K × Option B) × List (K × Option B)
  | [] => ([], [])
  | e :: rest =>
    match mx with
    | none => (e :: rest, [])
    | some m =>
      if m < entriesSize lenF (e :: rest) then
        let p := trimRev lenF (some m) rest
        (p.1, e :: p.2)
      else
        (e :: rest, [])

/-- Modelled from the spec: the OrderedStore (the external `lru-cache`
package, not part of `src/`), per §3/§4.1: a set of entries in strict
most-recently-used-first order, a capacity (`none` = unbounded), and a
per-value weight function (the `length` option; default weight 1). -/
structure LRU (K B : Type) where
  entries : List (K × Option B)
  max : Option Nat
  lengthFn : Option B → Nat

/-- Modelled from the spec: OrderedStore `peek` (§4.1) — lookup without
recency mutation.  Returns the stored value; a miss and a stored
`undefined` both come out as `none`, as in JavaScript. -/
def LRU.peek (l : LRU K B) (k : K) : Option B :=
  match l.entries.find? (keyEq k) with
  | some e => e.2
  | none => none

/-- Modelled from the spec: OrderedStore `has` (§4.1) — existence check,
true also for entries whose stored value is `undefined`. -/
def LRU.has (l : LRU K B) (k : K) : Bool :=
  l.entries.any (keyEq k)

/-- Modelled from the spec: OrderedStore `get` (§4.1) — if the key is
present the entry becomes most-recently-used and its value is returned;
the removal hook is never invoked. -/
def LRU.get (l : LRU K B) (k : K) : Option B × LRU K B :=
  match l.entries.find? (keyEq k) with
  | some e => (e.2, ⟨e :: l.entries.filter (fun x => !(keyEq k x)), l.max, l.lengthFn⟩)
  | none => (none, l)

/-- Modelled from the spec: OrderedStore `set` (§4.1) — the entry for `k`
is (re)inserted at the most-recently-used position, then least-recently-used
entries are evicted while the cumulative size exceeds the capacity (required
by the §3 at-rest capacity invariant; matches lru-cache, which trims after
updates as well).  The overwrite itself never fires the removal hook
(`noDisposeOnSet`); the returned list holds the evicted entries, in
hook-invocation (LRU-to-more-recent) order. -/
def LRU.set (l : LRU K B) (k : K) (v : Option B) : LRU K B × List (K × Option B) :=
  let p := trimRev l.lengthFn l.max (((k, v) :: l.entries.filter (fun e => !(keyEq k e))).reverse)
  (⟨p.1.reverse, l.max, l.lengthFn⟩, p.2)

/-- Modelled from the spec: OrderedStore `delete` (§4.1) — if present the
entry is removed and returned (the removal hook is invoked for it);
otherwise a no-op. -/
def LRU.del (l : LRU K B) (k : K) : LRU K B × Option (K × Option B) :=
  match l.entries.find? (keyEq k) with
  | some e => (⟨l.entries.filter (fun x => !(keyEq k x)), l.max, l.lengthFn⟩, some e)
  | none => (l, none)

/-- Modelled from the spec: OrderedStore `reset` (§4.1) — removes all
entries; the removal hook is invoked for each, most-recent-first
(the order the spec blesses as matching reference behaviour). -/
def LRU.reset (l : LRU K B) : LRU K B × List (K × Option B) :=
  (⟨[], l.max, l.lengthFn⟩, l.entries)

/-- Modelled from the spec: OrderedStore `forEach` order (§4.1) —
entries most-recently-used first. -/
def LRU.forEachList (l : LRU K B) : List (K × Option B) := l.entries

/-- Modelled from the spec: OrderedStore `rforEach` order (§4.1) —
entries least-recently-used first. -/
def LRU.rforEachList (l : LRU K B) : List (K × Option B) := l.entries.reverse

/-- Modelled from the spec: OrderedStore `keys()` (§4.1) — same order as
`forEach`. -/
def LRU.keysList (l : LRU K B) : List K := l.entries.map Prod.fst

/-- Modelled from the spec: OrderedStore `values()` (§4.1) — same order as
`forEach`. -/
def LRU.valuesList (l : LRU K B) : List (Option B) := l.entries.map Prod.snd

/-- Modelled from the spec: OrderedStore cumulative weighted size
(lru-cache's `length` property). -/
def LRU.length (l : LRU K B) : Nat := entriesSize l.lengthFn l.entries

/-- Modelled from the spec: OrderedStore entry count (lru-cache's
`itemCount`). -/
def LRU.itemCount (l : LRU K B) : Nat := l.entries.length

/-- Modelled from the spec: construction of an OrderedStore from a capacity
option and weight function.  A positive `max` bounds the store; lru-cache
documents a falsy `max` (absent or `0`) as `Infinity`, i.e. no bound. -/
def mkLRU (maxOpt : Option Int) (lenF : Option B → Nat) : LRU K B :=
  { entries := []
    max := match maxOpt with
      | some m => if 0 < m then some m.toNat else none
      | none => none
    lengthFn := lenF }

/-- Per-segment options of the `SLRU` constructor: a numeric shorthand `n`
stands for `⟨some n, fun _ => 1⟩` (count capacity with unit weight). -/
structure SegOptions (B : Type) where
  max : Option Int
  lengthFn : Option B → Nat

/-- The SLRU cache of `src/index.js`: a protected and a probationary
segment.  The protected segment's removal hook
(`options.protectedOptions.dispose`, `src/index.js` lines 82-84) is
`(k, v) => this.probationaryLru.set(k, v)`; it is represented explicitly by
`SLRU.demote` below rather than stored as a closure. -/
structure SLRU (K B : Type) where
  protectedLru : LRU K B
  probationaryLru : LRU K B

/-- The protected segment's removal hook from `src/index.js` lines 82-84:
every entry that leaves the protected store is reinserted into the
probationary store. -/
def SLRU.demote (s : SLRU K B) (kv : K × Option B) : SLRU K B :=
  { s with probationaryLru := (s.probationaryLru.set kv.1 kv.2).1 }

/-- Replay of the protected segment's removal hook for a batch of disposed
entries, in hook-invocation order.  The probationary store has no hook of
its own, so its evictions are dropped. -/
def SLRU.demoteAll (s : SLRU K B) (ds : List (K × Option B)) : SLRU K B :=
  ds.foldl SLRU.demote s

/-- `SLRU` constructor (`src/index.js` lines 63-88): builds the two stores;
no validation of the options is performed. -/
def mkSLRU (protOpts probOpts : SegOptions B) : SLRU K B :=
  { protectedLru := mkLRU protOpts.max protOpts.lengthFn
    probationaryLru := mkLRU probOpts.max probOpts.lengthFn }

/-- Fallible view of construction.  `src/index.js` performs no checks of its
own; lru-cache's constructor rejects a negative `max` with
`TypeError: max must be a non-negative number` and treats a falsy `max`
(including `0`) as `Infinity`. -/
def SLRU.construct (protOpts probOpts : SegOptions B) : Except String (SLRU K B) :=
  let bad : SegOptions B → Bool := fun o =>
    match o.max with
    | some m => decide (m < 0)
    | none => false
  if bad protOpts || bad probOpts then
    Except.error "max must be a non-negative number"
  else
    Except.ok (mkSLRU protOpts probOpts)

/-- `SLRU.get` (`src/index.js` lines 98-117). -/
def SLRU.get (s : SLRU K B) (k : K) : Option B × SLRU K B :=
  let r := s.protectedLru.get k
  let protectedItem := r.1
  let probationaryItem := s.probationaryLru.peek k
  let s1 : SLRU K B := { s with protectedLru := r.2 }
  if protectedItem = none ∧ probationaryItem = none then
    (none, s1)
  else if protectedItem ≠ none then
    (protectedItem, s1)
  else
    let s2 : SLRU K B := { s1 with probationaryLru := (s1.probationaryLru.del k).1 }
    let r2 := s2.protectedLru.set k probationaryItem
    (probationaryItem, SLRU.demoteAll { s2 with protectedLru := r2.1 } r2.2)

/-- `SLRU.peek` (`src/index.js` lines 126-135). -/
def SLRU.peek (s : SLRU K B) (k : K) : Option B :=
  let protectedItem := s.protectedLru.peek k
  let probationaryItem := s.probationaryLru.peek k
  if protectedItem = none then probationaryItem else protectedItem

/-- `SLRU.set` (`src/index.js` lines 150-162). -/
def SLRU.set (s : SLRU K B) (k : K) (v : Option B) : SLRU K B :=
  if s.protectedLru.has k then
    let r := s.protectedLru.set k v
    SLRU.demoteAll { s with protectedLru := r.1 } r.2
  else if s.probationaryLru.has k then
    let s1 : SLRU K B := { s with probationaryLru := (s.probationaryLru.del k).1 }
    let r := s1.protectedLru.set k v
    SLRU.demoteAll { s1 with protectedLru := r.1 } r.2
  else
    { s with probationaryLru := (s.probationaryLru.set k v).1 }

/-- `SLRU.del` (`src/index.js` lines 171-178): delete from probationary,
delete from protected (whose removal hook may reinsert the key into
probationary), then delete from probationary again. -/
def SLRU.del (s : SLRU K B) (k : K) : SLRU K B :=
  let s1 : SLRU K B := { s with probationaryLru := (s.probationaryLru.del k).1 }
  let r := s1.protectedLru.del k
  let s2 : SLRU K B :=
    match r.2 with
    | some kv => SLRU.demote { s1 with protectedLru := r.1 } kv
    | none => { s1 with protectedLru := r.1 }
  { s2 with probationaryLru := (s2.probationaryLru.del k).1 }

/-- `SLRU.has` (`src/index.js` lines 187-189). -/
def SLRU.has (s : SLRU K B) (k : K) : Bool :=
  s.protectedLru.has k || s.probationaryLru.has k

/-- `SLRU.reset` (`src/index.js` lines 194-197): reset protected first
(its removal hook repopulates probationary), then reset probationary. -/
def SLRU.reset (s : SLRU K B) : SLRU K B :=
  let r := s.protectedLru.reset
  let s1 := SLRU.demoteAll { s with protectedLru := r.1 } r.2
  { s1 with probationaryLru := (s1.probationaryLru.reset).1 }

/-- `SLRU.forEach` visit sequence (`src/index.js` lines 209-212):
protected entries then probationary entries, each most-recent-first. -/
def SLRU.forEachList (s : SLRU K B) : List (K × Option B) :=
  s.protectedLru.forEachList ++ s.probationaryLru.forEachList

/-- `SLRU.rforEach` visit sequence (`src/index.js` lines 224-227):
protected entries then probationary entries, each least-recent-first. -/
def SLRU.rforEachList (s : SLRU K B) : List (K × Option B) :=
  s.protectedLru.rforEachList ++ s.probationaryLru.rforEachList

/-- `SLRU.keys` (`src/index.js` lines 235-237). -/
def SLRU.keys (s : SLRU K B) : List K :=
  s.protectedLru.keysList ++ s.probationaryLru.keysList

/-- `SLRU.values` (`src/index.js` lines 245-247). -/
def SLRU.values (s : SLRU K B) : List (Option B) :=
  s.protectedLru.valuesList ++ s.probationaryLru.valuesList

/-- `SLRU.length` getter (`src/index.js` lines 253-255). -/
def SLRU.length (s : SLRU K B) : Nat :=
  s.protectedLru.length + s.probationaryLru.length

/-- `SLRU.itemCount` getter (`src/index.js` lines 260-262). -/
def SLRU.itemCount (s : SLRU K B) : Nat :=
  s.protectedLru.itemCount + s.probationaryLru.itemCount

/-- A public call on the cache. -/
inductive CacheOp (K B : Type) where
  | get (k : K)
  | set (k : K) (v : Option B)
  | del (k : K)
  | reset
  | peek (k : K)
  | has (k : K)

/-- State transition of one public call (`peek` and `has` do not mutate). -/
def SLRU.runOp (s : SLRU K B) : CacheOp K B → SLRU K B
  | .get k => (SLRU.get s k).2
  | .set k v => SLRU.set s k v
  | .del k => SLRU.del s k
  | .reset => SLRU.reset s
  | .peek _ => s
  | .has _ => s

/-- State after a sequence of public calls. -/
def SLRU.runOps (s : SLRU K B) (ops : List (CacheOp K B)) : SLRU K B :=
  ops.foldl SLRU.runOp s

/-- Well-formedness carried through the exclusion induction: each store has
no duplicate keys (§3 OrderedStore invariant) and no key is in both
segments at once. -/
def SLRU.Excl (s : SLRU K B) : Prop :=
  (s.protectedLru.entries.map Prod.fst).Nodup ∧
  (s.probationaryLru.entries.map Prod.fst).Nodup ∧
  ∀ k, ¬(s.protectedLru.has k = true ∧ s.probationaryLru.has k = true)

/-- Capacity bookkeeping carried through the capacity induction: each
store's configured capacity, and the at-rest bound on its cumulative size. -/
def SLRU.CapBound (s : SLRU K B) (mp mq : Nat) : Prop :=
  s.protectedLru.max = some mp ∧ s.probationaryLru.max = some mq ∧
  s.protectedLru.length ≤ mp ∧ s.probationaryLru.length ≤ mq

/-- Scenario: a probationary-resident entry whose weight (2) exceeds the
protected segment's weight capacity (1). -/
def heavyPromoteState : SLRU Nat Nat :=
  SLRU.set (mkSLRU ⟨some 1, fun _ => 2⟩ ⟨some 10, fun _ => 1⟩) 5 (some 7)

/-- Scenario: two promoted entries of weights 1 and 2 filling a protected
segment with weight capacity 3 (weight = stored numeric value). -/
def heavyUpdateState : SLRU Nat Nat :=
  (mkSLRU ⟨some 3, fun v => v.getD 1⟩ ⟨some 10, fun _ => 1⟩ : SLRU Nat Nat).runOps
    [CacheOp.set 1 (some 1), CacheOp.get 1, CacheOp.set 2 (some 2), CacheOp.get 2]

/-- Scenario: one key inserted and promoted on a unit-weight cache. -/
def promotedState : SLRU Nat Nat :=
  (mkSLRU ⟨some 2, fun _ => 1⟩ ⟨some 2, fun _ => 1⟩ : SLRU Nat Nat).runOps
    [CacheOp.set 0 (some 0), CacheOp.get 0, CacheOp.set 1 (some 1)]

/-- Scenario: a key stored with value `undefined` in the probationary
segment. -/
def undefinedValueState : SLRU Nat Nat :=
  SLRU.set (mkSLRU ⟨some 2, fun _ => 1⟩ ⟨some 2, fun _ => 1⟩) 4 none

/-! ### Basic lemmas about the store model -/

theorem keyEq_eq_true {k : K} {e : K × Option B} : keyEq k e = true ↔ e.1 = k := by
  simp [keyEq]

theorem entriesSize_reverse (lenF : Option B → Nat) (l : List (K × Option B)) :
    entriesSize lenF l.reverse = entriesSize lenF l := by
  simp [entriesSize, List.map_reverse, List.sum_reverse]

theorem entriesSize_cons (lenF : Option B → Nat) (e : K × Option B) (l : List (K × Option B)) :
    entriesSize lenF (e :: l) = lenF e.2 + entriesSize lenF l := by
  simp [entriesSize]

theorem entriesSize_append (lenF : Option B → Nat) (l₁ l₂ : List (K × Option B)) :
    entriesSize lenF (l₁ ++ l₂) = entriesSize lenF l₁ + entriesSize lenF l₂ := by
  simp [entriesSize]

theorem trimRev_none (lenF : Option B → Nat) (l : List (K × Option B)) :
    trimRev lenF none l = (l, []) := by
  cases l <;> simp [trimRev]

theorem trimRev_decomp (lenF : Option B → Nat) (mx : Option Nat) (l : List (K × Option B)) :
    (trimRev lenF mx l).2 ++ (trimRev lenF mx l).1 = l := by
  cases mx with
  | none => simp [trimRev_none]
  | some m =>
    induction l with
    | nil => simp [trimRev]
    | cons e rest ih =>
      simp only [trimRev]
      by_cases h : m < entriesSize lenF (e :: rest)
      · simpa [h] using ih
      · simp [h]

theorem trimRev_size_le (lenF : Option B → Nat) (m : Nat) (l : List (K × Option B)) :
    entriesSize lenF (trimRev lenF (some m) l).1 ≤ m := by
  induction l with
  | nil => simp [trimRev, entriesSize]
  | cons e rest ih =>
    simp only [trimRev]
    by_cases h : m < entriesSize lenF (e :: rest)
    · simpa [h] using ih
    · simpa [h] using Nat.le_of_not_lt h

theorem trimRev_of_size_le {lenF : Option B → Nat} {m : Nat} {l : List (K × Option B)}
    (h : entriesSize lenF l ≤ m) : trimRev lenF (some m) l = (l, []) := by
  cases l with
  | nil => simp [trimRev]
  | cons e rest => simp [trimRev, Nat.not_lt.mpr h]

theorem trimRev_last (lenF : Option B → Nat) (mx : Option Nat) (l : List (K × Option B))
    (e : K × Option B) (h : ∀ m, mx = some m → lenF e.2 ≤ m) :
    ∃ pre, (trimRev lenF mx (l ++ [e])).1 = pre ++ [e] := by
  cases mx with
  | none => exact ⟨l, by rw [trimRev_none]⟩
  | some m =>
    induction l with
    | nil =>
      have hle : entriesSize lenF [e] ≤ m := by
        simpa [entriesSize] using h m rfl
      exact ⟨[], by simp [trimRev_of_size_le hle]⟩
    | cons x rest ih =>
      simp only [List.cons_append, trimRev]
      by_cases hlt : m < entriesSize lenF (x :: (rest ++ [e]))
      · simpa [hlt] using ih
      · exact ⟨x :: rest, by simp [hlt]⟩

/-! ### Lemmas about the store operations -/

theorem LRU.has_iff {l : LRU K B} {k : K} :
    l.has k = true ↔ ∃ e ∈ l.entries, e.1 = k := by
  simp [LRU.has, List.any_eq_true, keyEq]

theorem LRU.has_eq_false_iff {l : LRU K B} {k : K} :
    l.has k = false ↔ ∀ e ∈ l.entries, e.1 ≠ k := by
  rw [← Bool.not_eq_true, LRU.has_iff]
  push_neg
  rfl

theorem LRU.set_max (l : LRU K B) (k : K) (v : Option B) :
    (LRU.set l k v).1.max = l.max := rfl

theorem LRU.set_lengthFn (l : LRU K B) (k : K) (v : Option B) :
    (LRU.set l k v).1.lengthFn = l.lengthFn := rfl

theorem LRU.set_entries_decomp (l : LRU K B) (k : K) (v : Option B) :
    (LRU.set l k v).2 ++ ((LRU.set l k v).1.entries).reverse =
      ((k, v) :: l.entries.filter (fun e => !(keyEq k e))).reverse := by
  have h := trimRev_decomp l.lengthFn l.max
    (((k, v) :: l.entries.filter (fun e => !(keyEq k e))).reverse)
  simpa [LRU.set] using h

theorem LRU.set_mem {l : LRU K B} {k : K} {v : Option B} {x : K × Option B}
    (hx : x ∈ (LRU.set l k v).1.entries) : x = (k, v) ∨ (x ∈ l.entries ∧ x.1 ≠ k) := by
  have hd := LRU.set_entries_decomp l k v
  have hx2 : x ∈ (LRU.set l k v).2 ++ ((LRU.set l k v).1.entries).reverse :=
    List.mem_append.mpr (Or.inr (List.mem_reverse.mpr hx))
  rw [hd] at hx2
  rcases List.mem_cons.mp (List.mem_reverse.mp hx2) with h | h
  · exact Or.inl h
  · have := List.mem_filter.mp h
    refine Or.inr ⟨this.1, ?_⟩
    have hne := this.2
    simp only [Bool.not_eq_true', keyEq, decide_eq_false_iff_not] at hne
    exact hne

theorem LRU.set_disposed_mem {l : LRU K B} {k : K} {v : Option B} {d : K × Option B}
    (hd : d ∈ (LRU.set l k v).2) : d = (k, v) ∨ (d ∈ l.entries ∧ d.1 ≠ k) := by
  have hdec := LRU.set_entries_decomp l k v
  have hx2 : d ∈ (LRU.set l k v).2 ++ ((LRU.set l k v).1.entries).reverse :=
    List.mem_append.mpr (Or.inl hd)
  rw [hdec] at hx2
  rcases List.mem_cons.mp (List.mem_reverse.mp hx2) with h | h
  · exact Or.inl h
  · have := List.mem_filter.mp h
    refine Or.inr ⟨this.1, ?_⟩
    have hne := this.2
    simp only [Bool.not_eq_true', keyEq, decide_eq_false_iff_not] at hne
    exact hne

theorem LRU.set_ins_keys_nodup {l : LRU K B} {k : K} {v : Option B}
    (h : (l.entries.map Prod.fst).Nodup) :
    ((((k, v) :: l.entries.filter (fun e => !(keyEq k e))).map Prod.fst)).Nodup := by
  simp only [List.map_cons, List.nodup_cons]
  constructor
  · intro hmem
    rcases List.mem_map.mp hmem with ⟨e, he, hfst⟩
    have := (List.mem_filter.mp he).2
    simp only [Bool.not_eq_true', keyEq, decide_eq_false_iff_not] at this
    exact this hfst
  · exact List.Nodup.sublist (List.Sublist.map Prod.fst (List.filter_sublist _)) h

theorem LRU.set_keys_nodup {l : LRU K B} {k : K} {v : Option B}
    (h : (l.entries.map Prod.fst).Nodup) :
    (((LRU.set l k v).1.entries).map Prod.fst).Nodup := by
  have hins := @LRU.set_ins_keys_nodup K B _ _ l k v h
  have hd := LRU.set_entries_decomp l k v
  have hsub : ((LRU.set l k v).1.entries).reverse.Sublist
      (((k, v) :: l.entries.filter (fun e => !(keyEq k e))).reverse) := by
    rw [← hd]
    exact (List.sublist_append_right _ _)
  have : (((LRU.set l k v).1.entries).reverse.map Prod.fst).Nodup :=
    List.Nodup.sublist (List.Sublist.map Prod.fst hsub)
      (by rw [List.map_reverse]; exact List.nodup_reverse.mpr hins)
  rw [List.map_reverse] at this
  exact List.nodup_reverse.mp this

theorem LRU.set_disposed_not_kept {l : LRU K B} {k : K} {v : Option B} {d : K × Option B}
    (h : (l.entries.map Prod.fst).Nodup) (hd : d ∈ (LRU.set l k v).2) :
    d.1 ∉ ((LRU.set l k v).1.entries).map Prod.fst := by
  have hins := @LRU.set_ins_keys_nodup K B _ _ l k v h
  have hdec := LRU.set_entries_decomp l k v
  have hnd : (((LRU.set l k v).2 ++ ((LRU.set l k v).1.entries).reverse).map Prod.fst).Nodup := by
    rw [hdec, List.map_reverse]
    exact List.nodup_reverse.mpr hins
  rw [List.map_append] at hnd
  have hdisj := (List.nodup_append.mp hnd).2.2
  intro hmem
  exact hdisj (List.mem_map_of_mem Prod.fst hd)
    (by rw [List.map_reverse]; exact List.mem_reverse.mpr hmem)

theorem LRU.set_length_le {l : LRU K B} {k : K} {v : Option B} {m : Nat}
    (hm : l.max = some m) : (LRU.set l k v).1.length ≤ m := by
  have h := trimRev_size_le l.lengthFn m
    (((k, v) :: l.entries.filter (fun e => !(keyEq k e))).reverse)
  simpa [LRU.set, LRU.length, hm, entriesSize_reverse] using h

theorem LRU.del_max (l : LRU K B) (k : K) : (LRU.del l k).1.max = l.max := by
  unfold LRU.del
  cases l.entries.find? (keyEq k) <;> rfl

theorem LRU.del_lengthFn (l : LRU K B) (k : K) : (LRU.del l k).1.lengthFn = l.lengthFn := by
  unfold LRU.del
  cases l.entries.find? (keyEq k) <;> rfl

theorem LRU.del_mem {l : LRU K B} {k : K} {x : K × Option B}
    (hx : x ∈ (LRU.del l k).1.entries) : x ∈ l.entries := by
  unfold LRU.del at hx
  cases hf : l.entries.find? (keyEq k) with
  | some e => rw [hf] at hx; exact (List.mem_filter.mp hx).1
  | none => rw [hf] at hx; exact hx

theorem LRU.del_not_has (l : LRU K B) (k : K) : (LRU.del l k).1.has k = false := by
  unfold LRU.del
  cases hf : l.entries.find? (keyEq k) with
  | some e =>
    rw [LRU.has_eq_false_iff]
    intro x hx
    have := (List.mem_filter.mp hx).2
    simp only [Bool.not_eq_true', keyEq, decide_eq_false_iff_not] at this
    exact this
  | none =>
    rw [LRU.has_eq_false_iff]
    intro x hx
    have := List.find?_eq_none.mp hf x hx
    simp only [keyEq, decide_eq_true_eq] at this
    exact this

theorem LRU.del_keys_nodup {l : LRU K B} {k : K}
    (h : (l.entries.map Prod.fst).Nodup) :
    (((LRU.del l k).1.entries).map Prod.fst).Nodup := by
  unfold LRU.del
  cases l.entries.find? (keyEq k) with
  | some e => exact List.Nodup.sublist (List.Sublist.map Prod.fst (List.filter_sublist _)) h
  | none => exact h

theorem LRU.del_length_le (l : LRU K B) (k : K) : (LRU.del l k).1.length ≤ l.length := by
  unfold LRU.del
  cases l.entries.find? (keyEq k) with
  | some e =>
    simp only [LRU.length, entriesSize]
    exact List.Sublist.sum_le_sum
      (List.Sublist.map _ (List.filter_sublist _)) (fun a _ => Nat.zero_le a)
  | none => exact Nat.le_refl _

theorem LRU.del_disposed {l : LRU K B} {k : K} {e : K × Option B}
    (h : (LRU.del l k).2 = some e) : e ∈ l.entries ∧ e.1 = k := by
  unfold LRU.del at h
  cases hf : l.entries.find? (keyEq k) with
  | some e2 =>
    rw [hf] at h
    cases h
    refine ⟨List.mem_of_find?_eq_some hf, ?_⟩
    have := List.find?_some hf
    simpa [keyEq] using this
  | none => rw [hf] at h; cases h

theorem LRU.get_max (l : LRU K B) (k : K) : (LRU.get l k).2.max = l.max := by
  unfold LRU.get
  cases l.entries.find? (keyEq k) <;> rfl

theorem LRU.get_lengthFn (l : LRU K B) (k : K) : (LRU.get l k).2.lengthFn = l.lengthFn := by
  unfold LRU.get
  cases l.entries.find? (keyEq k) <;> rfl

theorem LRU.get_mem {l : LRU K B} {k : K} {x : K × Option B}
    (hx : x ∈ (LRU.get l k).2.entries) : x ∈ l.entries := by
  unfold LRU.get at hx
  cases hf : l.entries.find? (keyEq k) with
  | some e =>
    rw [hf] at hx
    rcases List.mem_cons.mp hx with h | h
    · exact h ▸ List.mem_of_find?_eq_some hf
    · exact (List.mem_filter.mp h).1
  | none => rw [hf] at hx; exact hx

theorem LRU.get_keys_nodup {l : LRU K B} {k : K}
    (h : (l.entries.map Prod.fst).Nodup) :
    (((LRU.get l k).2.entries).map Prod.fst).Nodup := by
  unfold LRU.get
  cases hf : l.entries.find? (keyEq k) with
  | some e =>
    simp only [List.map_cons, List.nodup_cons]
    have hek : e.1 = k := by simpa [keyEq] using List.find?_some hf
    constructor
    · intro hmem
      rcases List.mem_map.mp hmem with ⟨x, hx, hfst⟩
      have := (List.mem_filter.mp hx).2
      simp only [Bool.not_eq_true', keyEq, decide_eq_false_iff_not] at this
      exact this (hfst.trans hek)
    · exact List.Nodup.sublist (List.Sublist.map Prod.fst (List.filter_sublist _)) h
  | none => exact h

theorem LRU.get_length_le (l : LRU K B) (k : K) : (LRU.get l k).2.length ≤ l.length := by
  unfold LRU.get
  cases hf : l.entries.find? (keyEq k) with
  | some e =>
    simp only [LRU.length, entriesSize, List.map_cons, List.sum_cons]
    have hperm := List.filter_append_perm (keyEq k) l.entries
    have hsum : (List.map (fun x => l.lengthFn x.2) (l.entries.filter (keyEq k))).sum +
        (List.map (fun x => l.lengthFn x.2) (l.entries.filter (fun x => !(keyEq k x)))).sum =
        (List.map (fun x => l.lengthFn x.2) l.entries).sum := by
      rw [← List.sum_append, ← List.map_append]
      exact List.Perm.sum_eq (List.Perm.map _ hperm)
    have hemem : e ∈ l.entries.filter (keyEq k) :=
      List.mem_filter.mpr ⟨List.mem_of_find?_eq_some hf, List.find?_some hf⟩
    have hle : l.lengthFn e.2 ≤
        (List.map (fun x => l.lengthFn x.2) (l.entries.filter (keyEq k))).sum :=
      List.single_le_sum (fun x _ => Nat.zero_le x) _
        (List.mem_map_of_mem (fun x => l.lengthFn x.2) hemem)
    omega
  | none => exact Nat.le_refl _

theorem LRU.get_of_not_has {l : LRU K B} {k : K} (h : l.has k = false) :
    LRU.get l k = (none, l) := by
  unfold LRU.get
  have : l.entries.find? (keyEq k) = none := by
    rw [List.find?_eq_none]
    intro x hx
    have := LRU.has_eq_false_iff.mp h x hx
    simpa [keyEq] using this
  rw [this]

theorem LRU.has_iff_mem_keys {l : LRU K B} {k : K} :
    l.has k = true ↔ k ∈ l.entries.map Prod.fst := by
  rw [LRU.has_iff]
  constructor
  · rintro ⟨e, he, hek⟩
    exact hek ▸ List.mem_map_of_mem Prod.fst he
  · intro h
    rcases List.mem_map.mp h with ⟨e, he, hek⟩
    exact ⟨e, he, hek⟩

theorem LRU.has_eq_false_of_not_mem {l : LRU K B} {k : K}
    (h : k ∉ l.entries.map Prod.fst) : l.has k = false := by
  cases hb : l.has k
  · rfl
  · exact absurd (LRU.has_iff_mem_keys.mp hb) h

/-! ### Lemmas about demotion replay -/

theorem SLRU.demoteAll_protectedLru (s : SLRU K B) (ds : List (K × Option B)) :
    (SLRU.demoteAll s ds).protectedLru = s.protectedLru := by
  induction ds generalizing s with
  | nil => rfl
  | cons d rest ih => exact ih (SLRU.demote s d)

theorem SLRU.demoteAll_prob_max (s : SLRU K B) (ds : List (K × Option B)) :
    (SLRU.demoteAll s ds).probationaryLru.max = s.probationaryLru.max := by
  induction ds generalizing s with
  | nil => rfl
  | cons d rest ih => exact ih (SLRU.demote s d)

theorem SLRU.demoteAll_prob_length (s : SLRU K B) (ds : List (K × Option B)) (m : Nat)
    (hm : s.probationaryLru.max = some m) (hl : s.probationaryLru.length ≤ m) :
    (SLRU.demoteAll s ds).probationaryLru.length ≤ m := by
  induction ds generalizing s with
  | nil => exact hl
  | cons d rest ih => exact ih (SLRU.demote s d) hm (LRU.set_length_le hm)

theorem SLRU.demoteAll_excl (s : SLRU K B) (ds : List (K × Option B))
    (hq : (s.probationaryLru.entries.map Prod.fst).Nodup)
    (hex : ∀ k, ¬(s.protectedLru.has k = true ∧ s.probationaryLru.has k = true))
    (hds : ∀ d ∈ ds, s.protectedLru.has d.1 = false) :
    ((SLRU.demoteAll s ds).probationaryLru.entries.map Prod.fst).Nodup ∧
    ∀ k, ¬((SLRU.demoteAll s ds).protectedLru.has k = true ∧
           (SLRU.demoteAll s ds).probationaryLru.has k = true) := by
  induction ds generalizing s with
  | nil => exact ⟨hq, hex⟩
  | cons d rest ih =>
    refine ih (SLRU.demote s d) (LRU.set_keys_nodup hq) ?_ ?_
    · rintro k ⟨hp, hq2⟩
      have hp' : s.protectedLru.has k = true := hp
      rcases LRU.has_iff.mp hq2 with ⟨e, he, hek⟩
      rcases LRU.set_mem he with h | h
      · have hkd : k = d.1 := by rw [← hek, h]
        have hd0 := hds d (List.mem_cons_self d rest)
        rw [hkd, hd0] at hp'
        cases hp'
      · exact hex k ⟨hp', LRU.has_iff.mpr ⟨e, h.1, hek⟩⟩
    · intro d2 hd2
      exact hds d2 (List.mem_cons_of_mem d hd2)

theorem SLRU.demoteAll_not_has (s : SLRU K B) (ds : List (K × Option B)) (k : K)
    (hq : s.probationaryLru.has k = false)
    (hds : ∀ d ∈ ds, d.1 ≠ k) :
    (SLRU.demoteAll s ds).probationaryLru.has k = false := by
  induction ds generalizing s with
  | nil => exact hq
  | cons d rest ih =>
    refine ih (SLRU.demote s d) ?_ ?_
    · rw [LRU.has_eq_false_iff]
      intro e he
      rcases LRU.set_mem he with h | h
      · simpa [h] using hds d (List.mem_cons_self d rest)
      · exact LRU.has_eq_false_iff.mp hq e h.1
    · intro d2 hd2
      exact hds d2 (List.mem_cons_of_mem d hd2)

/-! ### The mutual-exclusion invariant -/

theorem SLRU.excl_set (s : SLRU K B) (k : K) (v : Option B) (h : s.Excl) :
    (SLRU.set s k v).Excl := by
  obtain ⟨hp, hq, hex⟩ := h
  by_cases h1 : s.protectedLru.has k = true
  · have hstep : SLRU.set s k v =
        SLRU.demoteAll { s with protectedLru := (s.protectedLru.set k v).1 }
          (s.protectedLru.set k v).2 := by
      simp only [SLRU.set, h1, if_true]
    rw [hstep]
    have hmidex : ∀ k2, ¬((s.protectedLru.set k v).1.has k2 = true ∧
        s.probationaryLru.has k2 = true) := by
      rintro k2 ⟨hp2, hq2⟩
      rcases LRU.has_iff.mp hp2 with ⟨e, he, hek⟩
      rcases LRU.set_mem he with heq | hmem
      · have : k2 = k := by rw [← hek, heq]
        exact hex k ⟨h1, this ▸ hq2⟩
      · exact hex k2 ⟨LRU.has_iff.mpr ⟨e, hmem.1, hek⟩, hq2⟩
    have hds : ∀ d ∈ (s.protectedLru.set k v).2,
        (s.protectedLru.set k v).1.has d.1 = false := fun d hd =>
      LRU.has_eq_false_of_not_mem (LRU.set_disposed_not_kept hp hd)
    have hrest := SLRU.demoteAll_excl
      { s with protectedLru := (s.protectedLru.set k v).1 }
      (s.protectedLru.set k v).2 hq hmidex hds
    refine ⟨?_, hrest.1, hrest.2⟩
    rw [SLRU.demoteAll_protectedLru]
    exact LRU.set_keys_nodup hp
  · by_cases h2 : s.probationaryLru.has k = true
    · have hstep : SLRU.set s k v =
          SLRU.demoteAll
            { s with probationaryLru := (s.probationaryLru.del k).1,
                     protectedLru := (s.protectedLru.set k v).1 }
            (s.protectedLru.set k v).2 := by
        simp [SLRU.set, h1, h2]
      rw [hstep]
      have hmidex : ∀ k2, ¬((s.protectedLru.set k v).1.has k2 = true ∧
          (s.probationaryLru.del k).1.has k2 = true) := by
        rintro k2 ⟨hp2, hq2⟩
        rcases LRU.has_iff.mp hp2 with ⟨e, he, hek⟩
        rcases LRU.set_mem he with heq | hmem
        · have hk2 : k2 = k := by rw [← hek, heq]
          rw [hk2, LRU.del_not_has] at hq2
          cases hq2
        · rcases LRU.has_iff.mp hq2 with ⟨e2, he2, hek2⟩
          exact hex k2 ⟨LRU.has_iff.mpr ⟨e, hmem.1, hek⟩,
            LRU.has_iff.mpr ⟨e2, LRU.del_mem he2, hek2⟩⟩
      have hds : ∀ d ∈ (s.protectedLru.set k v).2,
          (s.protectedLru.set k v).1.has d.1 = false := fun d hd =>
        LRU.has_eq_false_of_not_mem (LRU.set_disposed_not_kept hp hd)
      have hrest := SLRU.demoteAll_excl
        { s with probationaryLru := (s.probationaryLru.del k).1,
                 protectedLru := (s.protectedLru.set k v).1 }
        (s.protectedLru.set k v).2 (LRU.del_keys_nodup hq) hmidex hds
      refine ⟨?_, hrest.1, hrest.2⟩
      rw [SLRU.demoteAll_protectedLru]
      exact LRU.set_keys_nodup hp
    · have hstep : SLRU.set s k v =
          { s with probationaryLru := (s.probationaryLru.set k v).1 } := by
        simp [SLRU.set, h1, h2]
      rw [hstep]
      refine ⟨hp, LRU.set_keys_nodup hq, ?_⟩
      rintro k2 ⟨hp2, hq2⟩
      rcases LRU.has_iff.mp hq2 with ⟨e, he, hek⟩
      rcases LRU.set_mem he with heq | hmem
      · have hk2 : k2 = k := by rw [← hek, heq]
        rw [hk2] at hp2
        exact h1 hp2
      · exact hex k2 ⟨hp2, LRU.has_iff.mpr ⟨e, hmem.1, hek⟩⟩

theorem SLRU.excl_get (s : SLRU K B) (k : K) (h : s.Excl) : ((SLRU.get s k).2).Excl := by
  obtain ⟨hp, hq, hex⟩ := h
  have hp1 : (((s.protectedLru.get k).2.entries).map Prod.fst).Nodup := LRU.get_keys_nodup hp
  have hex1 : ∀ k2, ¬((s.protectedLru.get k).2.has k2 = true ∧
      s.probationaryLru.has k2 = true) := by
    rintro k2 ⟨hp2, hq2⟩
    rcases LRU.has_iff.mp hp2 with ⟨e, he, hek⟩
    exact hex k2 ⟨LRU.has_iff.mpr ⟨e, LRU.get_mem he, hek⟩, hq2⟩
  by_cases c1 : (s.protectedLru.get k).1 = none ∧ s.probationaryLru.peek k = none
  · have hstep : (SLRU.get s k).2 = { s with protectedLru := (s.protectedLru.get k).2 } := by
      simp [SLRU.get, c1]
    rw [hstep]
    exact ⟨hp1, hq, hex1⟩
  · by_cases c2 : (s.protectedLru.get k).1 ≠ none
    · have hstep : (SLRU.get s k).2 = { s with protectedLru := (s.protectedLru.get k).2 } := by
        simp [SLRU.get, c1, c2]
      rw [hstep]
      exact ⟨hp1, hq, hex1⟩
    · have hstep : (SLRU.get s k).2 =
          SLRU.demoteAll
            { protectedLru :=
                ((s.protectedLru.get k).2.set k (s.probationaryLru.peek k)).1,
              probationaryLru := (s.probationaryLru.del k).1 }
            ((s.protectedLru.get k).2.set k (s.probationaryLru.peek k)).2 := by
        simp [SLRU.get, c1, c2, SLRU.demoteAll]
      rw [hstep]
      have hmidex : ∀ k2,
          ¬(((s.protectedLru.get k).2.set k (s.probationaryLru.peek k)).1.has k2 = true ∧
            (s.probationaryLru.del k).1.has k2 = true) := by
        rintro k2 ⟨hp2, hq2⟩
        rcases LRU.has_iff.mp hp2 with ⟨e, he, hek⟩
        rcases LRU.set_mem he with heq | hmem
        · have hk2 : k2 = k := by rw [← hek, heq]
          rw [hk2, LRU.del_not_has] at hq2
          cases hq2
        · rcases LRU.has_iff.mp hq2 with ⟨e2, he2, hek2⟩
          exact hex1 k2 ⟨LRU.has_iff.mpr ⟨e, hmem.1, hek⟩,
            LRU.has_iff.mpr ⟨e2, LRU.del_mem he2, hek2⟩⟩
      have hds : ∀ d ∈ ((s.protectedLru.get k).2.set k (s.probationaryLru.peek k)).2,
          ((s.protectedLru.get k).2.set k (s.probationaryLru.peek k)).1.has d.1 = false :=
        fun d hd => LRU.has_eq_false_of_not_mem (LRU.set_disposed_not_kept hp1 hd)
      have hrest := SLRU.demoteAll_excl
        { protectedLru := ((s.protectedLru.get k).2.set k (s.probationaryLru.peek k)).1,
          probationaryLru := (s.probationaryLru.del k).1 }
        ((s.protectedLru.get k).2.set k (s.probationaryLru.peek k)).2
        (LRU.del_keys_nodup hq) hmidex hds
      refine ⟨?_, hrest.1, hrest.2⟩
      rw [SLRU.demoteAll_protectedLru]
      exact LRU.set_keys_nodup hp1

theorem SLRU.excl_del (s : SLRU K B) (k : K) (h : s.Excl) : (SLRU.del s k).Excl := by
  obtain ⟨hp, hq, hex⟩ := h
  cases hr : (s.protectedLru.del k).2 with
  | some kv =>
    have hstep : SLRU.del s k =
        { protectedLru := (s.protectedLru.del k).1,
          probationaryLru :=
            (((((s.probationaryLru.del k).1).set kv.1 kv.2).1).del k).1 } := by
      simp [SLRU.del, SLRU.demote, hr]
    rw [hstep]
    have hkv : kv.1 = k := (LRU.del_disposed hr).2
    refine ⟨LRU.del_keys_nodup hp,
      LRU.del_keys_nodup (LRU.set_keys_nodup (LRU.del_keys_nodup hq)), ?_⟩
    rintro k2 ⟨hp2, hq2⟩
    have hnk : k2 ≠ k := by
      intro hkk
      rw [hkk, LRU.del_not_has] at hq2
      cases hq2
    rcases LRU.has_iff.mp hq2 with ⟨e, he, hek⟩
    have he2 := LRU.del_mem he
    rcases LRU.set_mem he2 with heq | hmem
    · rw [heq] at hek
      exact absurd (hek.symm.trans hkv) hnk
    · have he3 := LRU.del_mem hmem.1
      rcases LRU.has_iff.mp hp2 with ⟨e4, he4, hek4⟩
      exact hex k2 ⟨LRU.has_iff.mpr ⟨e4, LRU.del_mem he4, hek4⟩,
        LRU.has_iff.mpr ⟨e, he3, hek⟩⟩
  | none =>
    have hstep : SLRU.del s k =
        { protectedLru := (s.protectedLru.del k).1,
          probationaryLru := ((((s.probationaryLru.del k).1)).del k).1 } := by
      simp [SLRU.del, hr]
    rw [hstep]
    refine ⟨LRU.del_keys_nodup hp, LRU.del_keys_nodup (LRU.del_keys_nodup hq), ?_⟩
    rintro k2 ⟨hp2, hq2⟩
    rcases LRU.has_iff.mp hq2 with ⟨e, he, hek⟩
    rcases LRU.has_iff.mp hp2 with ⟨e4, he4, hek4⟩
    exact hex k2 ⟨LRU.has_iff.mpr ⟨e4, LRU.del_mem he4, hek4⟩,
      LRU.has_iff.mpr ⟨e, LRU.del_mem (LRU.del_mem he), hek⟩⟩

theorem SLRU.excl_reset (s : SLRU K B) (_h : s.Excl) : (SLRU.reset s).Excl := by
  have hprot : (SLRU.reset s).protectedLru.entries = ([] : List (K × Option B)) := by
    simp [SLRU.reset, SLRU.demoteAll_protectedLru, LRU.reset]
  have hprob : (SLRU.reset s).probationaryLru.entries = ([] : List (K × Option B)) := rfl
  refine ⟨?_, ?_, ?_⟩
  · rw [hprot]; simp
  · rw [hprob]; simp
  · rintro k2 ⟨hp2, hq2⟩
    rw [LRU.has, hprob] at hq2
    cases hq2

theorem SLRU.excl_runOp (s : SLRU K B) (op : CacheOp K B) (h : s.Excl) :
    (s.runOp op).Excl := by
  cases op with
  | get k => exact SLRU.excl_get s k h
  | set k v => exact SLRU.excl_set s k v h
  | del k => exact SLRU.excl_del s k h
  | reset => exact SLRU.excl_reset s h
  | peek k => exact h
  | has k => exact h

theorem SLRU.excl_runOps (s : SLRU K B) (ops : List (CacheOp K B)) (h : s.Excl) :
    (s.runOps ops).Excl := by
  induction ops generalizing s with
  | nil => exact h
  | cons op rest ih => exact ih (s.runOp op) (SLRU.excl_runOp s op h)

theorem mkSLRU_excl (po qo : SegOptions B) : (mkSLRU po qo : SLRU K B).Excl := by
  refine ⟨?_, ?_, ?_⟩
  · simp [mkSLRU, mkLRU]
  · simp [mkSLRU, mkLRU]
  · rintro k2 ⟨hp2, _⟩
    rw [mkSLRU] at hp2
    simp [mkLRU, LRU.has] at hp2

/-- C1: For every sequence of get/set/del/reset operations on a
`SegmentedCache`, at every point where a public call has returned, no key
is present in both the protected and the probationary segment
simultaneously. -/
theorem slru_mutual_exclusion (po qo : SegOptions B) (ops : List (CacheOp K B)) (k : K) :
    ¬(((mkSLRU po qo : SLRU K B).runOps ops).protectedLru.has k = true ∧
      ((mkSLRU po qo : SLRU K B).runOps ops).probationaryLru.has k = true) :=
  (SLRU.excl_runOps (mkSLRU po qo) ops (mkSLRU_excl po qo)).2.2 k

/-! ### The capacity invariant -/

/-- Branch shapes of `SLRU.set`, as in `src/index.js` lines 150-162. -/
theorem SLRU.set_eq_protHas {s : SLRU K B} {k : K} {v : Option B}
    (h1 : s.protectedLru.has k = true) :
    SLRU.set s k v = SLRU.demoteAll
      { s with protectedLru := (s.protectedLru.set k v).1 } (s.protectedLru.set k v).2 := by
  simp [SLRU.set, h1]

theorem SLRU.set_eq_probHas {s : SLRU K B} {k : K} {v : Option B}
    (h1 : ¬s.protectedLru.has k = true) (h2 : s.probationaryLru.has k = true) :
    SLRU.set s k v = SLRU.demoteAll
      { s with probationaryLru := (s.probationaryLru.del k).1,
               protectedLru := (s.protectedLru.set k v).1 } (s.protectedLru.set k v).2 := by
  simp [SLRU.set, h1, h2]

theorem SLRU.set_eq_new {s : SLRU K B} {k : K} {v : Option B}
    (h1 : ¬s.protectedLru.has k = true) (h2 : ¬s.probationaryLru.has k = true) :
    SLRU.set s k v = { s with probationaryLru := (s.probationaryLru.set k v).1 } := by
  simp [SLRU.set, h1, h2]

/-- Branch shapes of `SLRU.get`, as in `src/index.js` lines 98-117. -/
theorem SLRU.get_eq_noPromote {s : SLRU K B} {k : K}
    (h : ((s.protectedLru.get k).1 = none ∧ s.probationaryLru.peek k = none) ∨
         (s.protectedLru.get k).1 ≠ none) :
    (SLRU.get s k).2 = { s with protectedLru := (s.protectedLru.get k).2 } := by
  rcases h with h | h
  · simp [SLRU.get, h]
  · by_cases h0 : (s.protectedLru.get k).1 = none ∧ s.probationaryLru.peek k = none
    · simp [SLRU.get, h0]
    · simp [SLRU.get, h0, h]

theorem SLRU.get_eq_promote {s : SLRU K B} {k : K}
    (h1 : (s.protectedLru.get k).1 = none) (h2 : s.probationaryLru.peek k ≠ none) :
    (SLRU.get s k).2 = SLRU.demoteAll
      { protectedLru := ((s.protectedLru.get k).2.set k (s.probationaryLru.peek k)).1,
        probationaryLru := (s.probationaryLru.del k).1 }
      ((s.protectedLru.get k).2.set k (s.probationaryLru.peek k)).2 := by
  have h0 : ¬((s.protectedLru.get k).1 = none ∧ s.probationaryLru.peek k = none) := by
    rintro ⟨_, hc⟩
    exact h2 hc
  simp [SLRU.get, h0, h1, h2]

/-- Branch shapes of `SLRU.del`, as in `src/index.js` lines 171-178. -/
theorem SLRU.del_eq_protHit {s : SLRU K B} {k : K} {kv : K × Option B}
    (hr : (s.protectedLru.del k).2 = some kv) :
    SLRU.del s k =
      { protectedLru := (s.protectedLru.del k).1,
        probationaryLru :=
          (((((s.probationaryLru.del k).1).set kv.1 kv.2).1).del k).1 } := by
  simp [SLRU.del, SLRU.demote, hr]

theorem SLRU.del_eq_protMiss {s : SLRU K B} {k : K}
    (hr : (s.protectedLru.del k).2 = none) :
    SLRU.del s k =
      { protectedLru := (s.protectedLru.del k).1,
        probationaryLru := ((((s.probationaryLru.del k).1)).del k).1 } := by
  simp [SLRU.del, hr]

theorem SLRU.cap_set (s : SLRU K B) (k : K) (v : Option B) {mp mq : Nat}
    (h : s.CapBound mp mq) : (SLRU.set s k v).CapBound mp mq := by
  obtain ⟨hpm, hqm, hpl, hql⟩ := h
  by_cases h1 : s.protectedLru.has k = true
  · rw [SLRU.set_eq_protHas h1]
    refine ⟨?_, ?_, ?_, ?_⟩
    · rw [SLRU.demoteAll_protectedLru, LRU.set_max]
      exact hpm
    · rw [SLRU.demoteAll_prob_max]
      exact hqm
    · rw [SLRU.demoteAll_protectedLru]
      exact LRU.set_length_le hpm
    · exact SLRU.demoteAll_prob_length _ _ mq hqm hql
  · by_cases h2 : s.probationaryLru.has k = true
    · rw [SLRU.set_eq_probHas h1 h2]
      refine ⟨?_, ?_, ?_, ?_⟩
      · rw [SLRU.demoteAll_protectedLru, LRU.set_max]
        exact hpm
      · rw [SLRU.demoteAll_prob_max]
        show (s.probationaryLru.del k).1.max = some mq
        rw [LRU.del_max]
        exact hqm
      · rw [SLRU.demoteAll_protectedLru]
        exact LRU.set_length_le hpm
      · refine SLRU.demoteAll_prob_length _ _ mq ?_ ?_
        · show (s.probationaryLru.del k).1.max = some mq
          rw [LRU.del_max]
          exact hqm
        · exact le_trans (LRU.del_length_le s.probationaryLru k) hql
    · rw [SLRU.set_eq_new h1 h2]
      exact ⟨hpm, by rw [LRU.set_max]; exact hqm, hpl, LRU.set_length_le hqm⟩

theorem SLRU.cap_get (s : SLRU K B) (k : K) {mp mq : Nat}
    (h : s.CapBound mp mq) : ((SLRU.get s k).2).CapBound mp mq := by
  obtain ⟨hpm, hqm, hpl, hql⟩ := h
  have hgm : (s.protectedLru.get k).2.max = some mp := by rw [LRU.get_max]; exact hpm
  by_cases c1 : (s.protectedLru.get k).1 = none ∧ s.probationaryLru.peek k = none
  · rw [SLRU.get_eq_noPromote (Or.inl c1)]
    exact ⟨hgm, hqm, le_trans (LRU.get_length_le s.protectedLru k) hpl, hql⟩
  · by_cases c2 : (s.protectedLru.get k).1 ≠ none
    · rw [SLRU.get_eq_noPromote (Or.inr c2)]
      exact ⟨hgm, hqm, le_trans (LRU.get_length_le s.protectedLru k) hpl, hql⟩
    · have c1' : (s.protectedLru.get k).1 = none := by
        by_contra hc
        exact c2 hc
      have c2' : s.probationaryLru.peek k ≠ none := by
        intro hc
        exact c1 ⟨c1', hc⟩
      rw [SLRU.get_eq_promote c1' c2']
      refine ⟨?_, ?_, ?_, ?_⟩
      · rw [SLRU.demoteAll_protectedLru, LRU.set_max]
        exact hgm
      · rw [SLRU.demoteAll_prob_max]
        show (s.probationaryLru.del k).1.max = some mq
        rw [LRU.del_max]
        exact hqm
      · rw [SLRU.demoteAll_protectedLru]
        exact LRU.set_length_le hgm
      · refine SLRU.demoteAll_prob_length _ _ mq ?_ ?_
        · show (s.probationaryLru.del k).1.max = some mq
          rw [LRU.del_max]
          exact hqm
        · exact le_trans (LRU.del_length_le s.probationaryLru k) hql

theorem SLRU.cap_del (s : SLRU K B) (k : K) {mp mq : Nat}
    (h : s.CapBound mp mq) : (SLRU.del s k).CapBound mp mq := by
  obtain ⟨hpm, hqm, hpl, hql⟩ := h
  have hq1m : (s.probationaryLru.del k).1.max = some mq := by rw [LRU.del_max]; exact hqm
  cases hr : (s.protectedLru.del k).2 with
  | some kv =>
    rw [SLRU.del_eq_protHit hr]
    refine ⟨by rw [LRU.del_max]; exact hpm, ?_, ?_, ?_⟩
    · rw [LRU.del_max, LRU.set_max]
      exact hq1m
    · exact le_trans (LRU.del_length_le s.protectedLru k) hpl
    · exact le_trans (LRU.del_length_le _ k) (LRU.set_length_le hq1m)
  | none =>
    rw [SLRU.del_eq_protMiss hr]
    refine ⟨by rw [LRU.del_max]; exact hpm, by rw [LRU.del_max]; exact hq1m, ?_, ?_⟩
    · exact le_trans (LRU.del_length_le s.protectedLru k) hpl
    · exact le_trans (LRU.del_length_le _ k) (le_trans (LRU.del_length_le _ k) hql)

theorem SLRU.cap_reset (s : SLRU K B) {mp mq : Nat}
    (h : s.CapBound mp mq) : (SLRU.reset s).CapBound mp mq := by
  obtain ⟨hpm, hqm, _, _⟩ := h
  refine ⟨?_, ?_, ?_, ?_⟩
  · show (SLRU.demoteAll _ _).protectedLru.max = some mp
    rw [SLRU.demoteAll_protectedLru]
    exact hpm
  · show (SLRU.demoteAll _ _).probationaryLru.max = some mq
    rw [SLRU.demoteAll_prob_max]
    exact hqm
  · show (SLRU.demoteAll _ _).protectedLru.length ≤ mp
    rw [SLRU.demoteAll_protectedLru]
    simp [LRU.reset, LRU.length, entriesSize]
  · show entriesSize _ ([] : List (K × Option B)) ≤ mq
    simp [entriesSize]

theorem SLRU.cap_runOp (s : SLRU K B) (op : CacheOp K B) {mp mq : Nat}
    (h : s.CapBound mp mq) : (s.runOp op).CapBound mp mq := by
  cases op with
  | get k => exact SLRU.cap_get s k h
  | set k v => exact SLRU.cap_set s k v h
  | del k => exact SLRU.cap_del s k h
  | reset => exact SLRU.cap_reset s h
  | peek k => exact h
  | has k => exact h

theorem SLRU.cap_runOps (s : SLRU K B) (ops : List (CacheOp K B)) {mp mq : Nat}
    (h : s.CapBound mp mq) : (s.runOps ops).CapBound mp mq := by
  induction ops generalizing s with
  | nil => exact h
  | cons op rest ih => exact ih (s.runOp op) (SLRU.cap_runOp s op h)

/-- C2: For every sequence of operations on a `SegmentedCache`, after any
public call returns, each segment's cumulative weighted size does not exceed
that segment's configured capacity (transient overshoot during a call is
resolved by LRU eviction before the call returns). -/
theorem slru_capacity_invariant (po qo : SegOptions B) (mp mq : Nat)
    (hp : (mkSLRU po qo : SLRU K B).protectedLru.max = some mp)
    (hq : (mkSLRU po qo : SLRU K B).probationaryLru.max = some mq)
    (ops : List (CacheOp K B)) :
    ((mkSLRU po qo : SLRU K B).runOps ops).protectedLru.length ≤ mp ∧
    ((mkSLRU po qo : SLRU K B).runOps ops).probationaryLru.length ≤ mq := by
  have hinit : (mkSLRU po qo : SLRU K B).CapBound mp mq := by
    refine ⟨hp, hq, ?_, ?_⟩
    · show entriesSize _ ([] : List (K × Option B)) ≤ mp
      simp [entriesSize]
    · show entriesSize _ ([] : List (K × Option B)) ≤ mq
      simp [entriesSize]
  have hres := SLRU.cap_runOps (mkSLRU po qo) ops hinit
  exact ⟨hres.2.2.1, hres.2.2.2⟩

/-- Witness for C2: a cache with both capacities 2 stays within bounds after
three inserts and a promotion. -/
theorem slru_capacity_invariant_witness :
    ((mkSLRU ⟨some 2, fun _ => 1⟩ ⟨some 2, fun _ => 1⟩ : SLRU Nat Nat).runOps
        [CacheOp.set 0 (some 0), CacheOp.get 0, CacheOp.set 1 (some 1),
         CacheOp.set 2 (some 2), CacheOp.set 3 (some 3)]).protectedLru.length ≤ 2 ∧
    ((mkSLRU ⟨some 2, fun _ => 1⟩ ⟨some 2, fun _ => 1⟩ : SLRU Nat Nat).runOps
        [CacheOp.set 0 (some 0), CacheOp.get 0, CacheOp.set 1 (some 1),
         CacheOp.set 2 (some 2), CacheOp.set 3 (some 3)]).probationaryLru.length ≤ 2 :=
  slru_capacity_invariant ⟨some 2, fun _ => 1⟩ ⟨some 2, fun _ => 1⟩ 2 2 rfl rfl
    [CacheOp.set 0 (some 0), CacheOp.get 0, CacheOp.set 1 (some 1),
     CacheOp.set 2 (some 2), CacheOp.set 3 (some 3)]

/-! ### Further store lemmas for promotion and in-place update -/

theorem LRU.find?_eq_none_of_not_has {l : LRU K B} {k : K} (h : l.has k = false) :
    l.entries.find? (keyEq k) = none := by
  rw [List.find?_eq_none]
  intro x hx
  have := LRU.has_eq_false_iff.mp h x hx
  simpa [keyEq] using this

theorem LRU.peek_of_not_has {l : LRU K B} {k : K} (h : l.has k = false) :
    l.peek k = none := by
  unfold LRU.peek
  rw [LRU.find?_eq_none_of_not_has h]

theorem LRU.peek_head {l : LRU K B} {k : K} {x : Option B} {pre : List (K × Option B)}
    (h : l.entries = (k, x) :: pre) : l.peek k = x := by
  unfold LRU.peek
  rw [h, List.find?_cons_of_pos _ (by simp [keyEq])]

theorem LRU.set_keeps_self {l : LRU K B} {k : K} {v : Option B}
    (h : ∀ m, l.max = some m → l.lengthFn v ≤ m) :
    ∃ pre, (LRU.set l k v).1.entries = (k, v) :: pre := by
  rcases trimRev_last l.lengthFn l.max
      ((l.entries.filter (fun e => !(keyEq k e))).reverse) (k, v) h with ⟨pre, hpre⟩
  refine ⟨pre.reverse, ?_⟩
  show (trimRev l.lengthFn l.max
      (((k, v) :: l.entries.filter (fun e => !(keyEq k e))).reverse)).1.reverse = _
  rw [List.reverse_cons, hpre, List.reverse_append]
  rfl

theorem LRU.set_no_evict {l : LRU K B} {k : K} {v : Option B}
    (h : ∀ m, l.max = some m →
      entriesSize l.lengthFn ((k, v) :: l.entries.filter (fun e => !(keyEq k e))) ≤ m) :
    (LRU.set l k v).1.entries = (k, v) :: l.entries.filter (fun e => !(keyEq k e)) ∧
    (LRU.set l k v).2 = [] := by
  cases hm : l.max with
  | none =>
    constructor
    · show (trimRev l.lengthFn l.max _).1.reverse = _
      rw [hm, trimRev_none, List.reverse_reverse]
    · show (trimRev l.lengthFn l.max _).2 = []
      rw [hm, trimRev_none]
  | some m =>
    have hle : entriesSize l.lengthFn
        (((k, v) :: l.entries.filter (fun e => !(keyEq k e))).reverse) ≤ m := by
      rw [entriesSize_reverse]
      exact h m hm
    constructor
    · show (trimRev l.lengthFn l.max _).1.reverse = _
      rw [hm, trimRev_of_size_le hle, List.reverse_reverse]
    · show (trimRev l.lengthFn l.max _).2 = []
      rw [hm, trimRev_of_size_le hle]

theorem SLRU.get_fst_promote {s : SLRU K B} {k : K}
    (hp : (s.protectedLru.get k).1 = none) (hq : s.probationaryLru.peek k ≠ none) :
    (SLRU.get s k).1 = s.probationaryLru.peek k := by
  have h0 : ¬((s.protectedLru.get k).1 = none ∧ s.probationaryLru.peek k = none) := by
    rintro ⟨_, hc⟩
    exact hq hc
  simp [SLRU.get, h0, hp, hq]

/-- C3 (counterexample): on a reachable cache whose protected segment has
weight capacity 1 and per-entry weight 2, key 5 sits in probationary with a
present value, yet `get 5` returns the value and leaves key 5 in the
probationary segment and not in the protected one — the promoted entry is
immediately evicted from protected and demoted back. -/
theorem slru_promotion_counterexample :
    heavyPromoteState.probationaryLru.peek 5 = some 7 ∧
    heavyPromoteState.protectedLru.has 5 = false ∧
    (SLRU.get heavyPromoteState 5).1 = some 7 ∧
    (SLRU.get heavyPromoteState 5).2.protectedLru.has 5 = false ∧
    (SLRU.get heavyPromoteState 5).2.probationaryLru.has 5 = true := by
  decide

/-- C3 (amended): for every key `k` present in the probationary segment with
a value other than the absent sentinel, absent from the protected segment,
and whose weight does not exceed the protected capacity (always true for
count-based capacities ≥ 1), `cache.get(k)` returns the value, removes `k`
from probationary and inserts it into protected at the most-recently-used
position; afterwards `k` lives in the protected segment only and `peek`
reports its value. -/
theorem slru_promotion (s : SLRU K B) (k : K) (v : B)
    (h1 : s.probationaryLru.peek k = some v)
    (h2 : s.protectedLru.has k = false)
    (h3 : ∀ m, s.protectedLru.max = some m → s.protectedLru.lengthFn (some v) ≤ m)
    (h4 : (s.protectedLru.entries.map Prod.fst).Nodup) :
    (SLRU.get s k).1 = some v ∧
    ((SLRU.get s k).2).protectedLru.entries.head? = some (k, some v) ∧
    ((SLRU.get s k).2).protectedLru.has k = true ∧
    ((SLRU.get s k).2).probationaryLru.has k = false ∧
    ((SLRU.get s k).2).peek k = some v := by
  have hr : s.protectedLru.get k = (none, s.protectedLru) := LRU.get_of_not_has h2
  have hp0 : (s.protectedLru.get k).1 = none := by rw [hr]
  have hq0 : s.probationaryLru.peek k ≠ none := by
    rw [h1]
    exact Option.some_ne_none v
  have hval : (SLRU.get s k).1 = some v := by
    rw [SLRU.get_fst_promote hp0 hq0, h1]
  have hshape := SLRU.get_eq_promote hp0 hq0
  have hr2 : (s.protectedLru.get k).2 = s.protectedLru := by rw [hr]
  rcases @LRU.set_keeps_self K B _ _ s.protectedLru k (some v) h3 with ⟨pre, hpre⟩
  have hprotF : ((SLRU.get s k).2).protectedLru = (s.protectedLru.set k (some v)).1 := by
    rw [hshape, SLRU.demoteAll_protectedLru]
    show ((s.protectedLru.get k).2.set k (s.probationaryLru.peek k)).1 = _
    rw [hr2, h1]
  refine ⟨hval, ?_, ?_, ?_, ?_⟩
  · rw [hprotF, hpre]
    rfl
  · rw [hprotF]
    exact LRU.has_iff.mpr ⟨(k, some v), by rw [hpre]; exact List.mem_cons_self _ _, rfl⟩
  · rw [hshape]
    refine SLRU.demoteAll_not_has _ _ k (LRU.del_not_has _ _) ?_
    intro d hd
    rw [hr2, h1] at hd
    have hout := LRU.set_disposed_not_kept h4 hd
    intro hdk
    refine hout ?_
    rw [hdk, hprotF.symm, hprotF, hpre]
    exact List.mem_map_of_mem Prod.fst (List.mem_cons_self _ _)
  · have hpk : ((SLRU.get s k).2).protectedLru.peek k = some v := by
      rw [hprotF]
      exact LRU.peek_head hpre
    simp [SLRU.peek, hpk]

/-- Witness for C3 (amended): key 1 sits in the probationary segment of a
unit-weight cache; `get 1` promotes it to the protected MRU position. -/
theorem slru_promotion_witness :
    (SLRU.get promotedState 1).1 = some 1 ∧
    (SLRU.get promotedState 1).2.protectedLru.entries.head? = some (1, some 1) ∧
    (SLRU.get promotedState 1).2.protectedLru.has 1 = true ∧
    (SLRU.get promotedState 1).2.probationaryLru.has 1 = false ∧
    (SLRU.get promotedState 1).2.peek 1 = some 1 :=
  slru_promotion promotedState 1 1 (by decide) (by decide)
    (by
      intro m hm
      have h2eq : promotedState.protectedLru.max = some 2 := by decide
      have hm2 : (2 : Nat) = m := Option.some.inj (h2eq.symm.trans hm)
      subst hm2
      decide)
    (by decide)

/-- C4: for every cache state and key, `del k` removes the key from both
segments — including the copy the protected removal hook reinserts into
probationary — so `has k` is false afterwards. -/
theorem slru_del_purges (s : SLRU K B) (k : K) :
    (SLRU.del s k).has k = false ∧
    (SLRU.del s k).protectedLru.has k = false ∧
    (SLRU.del s k).probationaryLru.has k = false := by
  cases hr : (s.protectedLru.del k).2 with
  | some kv =>
    rw [SLRU.del_eq_protHit hr]
    refine ⟨?_, LRU.del_not_has _ _, LRU.del_not_has _ _⟩
    simp [SLRU.has, LRU.del_not_has]
  | none =>
    rw [SLRU.del_eq_protMiss hr]
    refine ⟨?_, LRU.del_not_has _ _, LRU.del_not_has _ _⟩
    simp [SLRU.has, LRU.del_not_has]

/-- C5: `reset` (protected first, then probationary) leaves the cache
completely empty for every prior state: both segments empty, total count 0,
and `has k` false for every key, despite the protected removal hook
repopulating probationary during the reset. -/
theorem slru_reset_complete (s : SLRU K B) :
    (SLRU.reset s).protectedLru.entries = [] ∧
    (SLRU.reset s).probationaryLru.entries = [] ∧
    (SLRU.reset s).itemCount = 0 ∧
    ∀ k, (SLRU.reset s).has k = false := by
  have hprot : (SLRU.reset s).protectedLru.entries = ([] : List (K × Option B)) := by
    simp [SLRU.reset, SLRU.demoteAll_protectedLru, LRU.reset]
  have hprob : (SLRU.reset s).probationaryLru.entries = ([] : List (K × Option B)) := rfl
  refine ⟨hprot, hprob, ?_, ?_⟩
  · simp [SLRU.itemCount, LRU.itemCount, hprot, hprob]
  · intro k
    simp [SLRU.has, LRU.has, hprot, hprob]

/-- C6: with both capacities 2, `set 0; get 0; set 1; get 1; set 2; get 2`
leaves key 0 demoted to the probationary segment and keys 1, 2 in the
protected segment. -/
theorem slru_demotion_eviction_cascade :
    ((mkSLRU ⟨some 2, fun _ => 1⟩ ⟨some 2, fun _ => 1⟩ : SLRU Nat String).runOps
        [CacheOp.set 0 (some "0"), CacheOp.get 0, CacheOp.set 1 (some "1"),
         CacheOp.get 1, CacheOp.set 2 (some "2"), CacheOp.get 2]).protectedLru.entries =
      [(2, some "2"), (1, some "1")] ∧
    ((mkSLRU ⟨some 2, fun _ => 1⟩ ⟨some 2, fun _ => 1⟩ : SLRU Nat String).runOps
        [CacheOp.set 0 (some "0"), CacheOp.get 0, CacheOp.set 1 (some "1"),
         CacheOp.get 1, CacheOp.set 2 (some "2"), CacheOp.get 2]).probationaryLru.entries =
      [(0, some "0")] := by
  constructor <;> rfl

/-- C7 (counterexample): with a weight-based protected capacity (capacity 3,
weight = stored value), updating already-protected key 2 in place from
weight 2 to weight 3 overflows the segment and demotes protected key 1 into
the previously-empty probationary segment — the removal hook does fire. -/
theorem slru_update_counterexample :
    heavyUpdateState.protectedLru.has 1 = true ∧
    heavyUpdateState.protectedLru.has 2 = true ∧
    heavyUpdateState.probationaryLru.entries = [] ∧
    (SLRU.set heavyUpdateState 2 (some 3)).probationaryLru.entries = [(1, some 1)] ∧
    (SLRU.set heavyUpdateState 2 (some 3)).protectedLru.has 1 = false := by
  decide

/-- C7 (amended): for every key `k` already in the protected segment,
`set k v` updates the entry in place at the protected MRU position and —
provided the updated segment's cumulative size still fits its capacity
(always true for count-based capacities) — evicts nothing: the removal hook
is not invoked and the probationary segment is left unchanged. -/
theorem slru_update_in_place (s : SLRU K B) (k : K) (v : Option B)
    (h1 : s.protectedLru.has k = true)
    (h2 : ∀ m, s.protectedLru.max = some m →
      entriesSize s.protectedLru.lengthFn
        ((k, v) :: s.protectedLru.entries.filter (fun e => !(keyEq k e))) ≤ m) :
    SLRU.set s k v = { s with protectedLru := (s.protectedLru.set k v).1 } ∧
    (s.protectedLru.set k v).1.entries =
      (k, v) :: s.protectedLru.entries.filter (fun e => !(keyEq k e)) ∧
    (s.protectedLru.set k v).2 = [] ∧
    (SLRU.set s k v).probationaryLru = s.probationaryLru := by
  have hne := @LRU.set_no_evict K B _ _ s.protectedLru k v h2
  have hstep := @SLRU.set_eq_protHas K B _ _ s k v h1
  refine ⟨?_, hne.1, hne.2, ?_⟩
  · rw [hstep, hne.2]
    rfl
  · rw [hstep, hne.2]
    rfl

/-- Witness for C7 (amended): updating protected-resident key 0 on a
unit-weight cache evicts nothing and leaves probationary untouched. -/
theorem slru_update_in_place_witness :
    SLRU.set promotedState 0 (some 9) =
      { promotedState with protectedLru := (promotedState.protectedLru.set 0 (some 9)).1 } ∧
    (promotedState.protectedLru.set 0 (some 9)).1.entries =
      (0, some 9) :: promotedState.protectedLru.entries.filter (fun e => !(keyEq 0 e)) ∧
    (promotedState.protectedLru.set 0 (some 9)).2 = [] ∧
    (SLRU.set promotedState 0 (some 9)).probationaryLru = promotedState.probationaryLru :=
  slru_update_in_place promotedState 0 (some 9) (by decide)
    (by
      intro m hm
      have h2eq : promotedState.protectedLru.max = some 2 := by decide
      have hm2 : (2 : Nat) = m := Option.some.inj (h2eq.symm.trans hm)
      subst hm2
      decide)

/-- C8 evaluation: the constructor accepts capacity 0 for both segments
(`lru-cache` treats a falsy `max` as `Infinity`), and the resulting cache
then retains five entries — there is no configuration error and no bound. -/
theorem slru_zero_capacity_accepted :
    (SLRU.construct ⟨some 0, fun _ => 1⟩ ⟨some 0, fun _ => 1⟩ :
        Except String (SLRU Nat Nat)) =
      Except.ok (mkSLRU ⟨some 0, fun _ => 1⟩ ⟨some 0, fun _ => 1⟩) ∧
    ((mkSLRU ⟨some 0, fun _ => 1⟩ ⟨some 0, fun _ => 1⟩ : SLRU Nat Nat).runOps
        [CacheOp.set 0 (some 0), CacheOp.set 1 (some 1), CacheOp.set 2 (some 2),
         CacheOp.set 3 (some 3), CacheOp.set 4 (some 4)]).itemCount = 5 := by
  exact ⟨rfl, by decide⟩

/-- C9: `forEach` visits protected entries most-recent-first then
probationary entries most-recent-first; `rforEach` visits each segment
least-recent-first in the same protected-then-probationary segment order;
`keys`/`values` are the concatenations in `forEach` order. -/
theorem slru_iteration_order (s : SLRU K B) :
    s.forEachList = s.protectedLru.entries ++ s.probationaryLru.entries ∧
    s.rforEachList = s.protectedLru.entries.reverse ++ s.probationaryLru.entries.reverse ∧
    s.keys = s.forEachList.map Prod.fst ∧
    s.values = s.forEachList.map Prod.snd := by
  refine ⟨rfl, rfl, ?_, ?_⟩
  · simp [SLRU.keys, SLRU.forEachList, LRU.forEachList, LRU.keysList]
  · simp [SLRU.values, SLRU.forEachList, LRU.forEachList, LRU.valuesList]

/-- C10: a key stored with the absent sentinel (`undefined`) as its value in
the probationary segment answers `has` with true, while `get` and `peek`
return the sentinel and `get` performs no promotion — the cache state is
completely unchanged. -/
theorem slru_undefined_value (s : SLRU K B) (k : K)
    (h1 : s.probationaryLru.entries.find? (keyEq k) = some (k, none))
    (h2 : s.protectedLru.has k = false) :
    s.has k = true ∧ s.peek k = none ∧ SLRU.get s k = (none, s) := by
  have hprobhas : s.probationaryLru.has k = true :=
    LRU.has_iff.mpr ⟨(k, none), List.mem_of_find?_eq_some h1, rfl⟩
  have hppeek : s.probationaryLru.peek k = none := by
    unfold LRU.peek
    rw [h1]
  have hgr : s.protectedLru.get k = (none, s.protectedLru) := LRU.get_of_not_has h2
  refine ⟨?_, ?_, ?_⟩
  · simp [SLRU.has, hprobhas]
  · simp [SLRU.peek, LRU.peek_of_not_has h2, hppeek]
  · simp [SLRU.get, hgr, hppeek]

/-- Witness for C10: key 4 stored with value `undefined`. -/
theorem slru_undefined_value_witness :
    undefinedValueState.has 4 = true ∧ undefinedValueState.peek 4 = none ∧
    SLRU.get undefinedValueState 4 = (none, undefinedValueState) :=
  slru_undefined_value undefinedValueState 4 (by decide) (by decide)
